import Mathlib

/-!
Verification of the markdown → Google-Docs converter
(`portals/adapters/gdocs/converter.py`).

The development shallowly embeds the converter: the token walker that
builds a flat plain-text buffer together with recorded format / list /
table ranges, and the request generator that turns the recorded ranges
into an ordered list of batch-update requests.

The markdown tokenizer (markdown-it) is an external collaborator; the
embedding therefore starts from its token stream.  Token streams are
modelled by the inductive types `InlineChild` and `Tok`; concrete
scenarios instantiate them with the streams markdown-it produces for the
scenario's markdown input.

Loops of the Python code whose recursion is not structural are embedded
with an explicit fuel parameter; the fuel supplied at every call site is
an upper bound on the number of loop iterations, so the fuelled function
agrees with the Python loop there.  All invariant theorems are proved
for every fuel value, hence in particular for the supplied one.
-/

/-- Whitespace as matched by Python's `\s` (ASCII part) and `str.strip`. -/
def isPySpace (c : Char) : Bool :=
  c = ' ' || c = '\t' || c = '\n' || c = '\r' || c = '\x0b' || c = '\x0c'

/-- Drop leading Python whitespace. -/
def dropSpaces : List Char → List Char
  | [] => []
  | c :: cs => if isPySpace c then dropSpaces cs else c :: cs

/-- Embedding of Python `str.strip()`. -/
def stripPy (t : List Char) : List Char :=
  (dropSpaces (dropSpaces t).reverse).reverse

/-- True iff Python `t.strip()` is truthy (t contains a non-space char). -/
def hasNonSpace (t : List Char) : Bool :=
  t.any (fun c => !(isPySpace c))

/-- Embedding of the regex `^\s*\[\s*[x ]?\s*\]\s*` substitution that the
list-item handler applies to strip a leading checkbox marker.  The `[x ]`
character class is subsumed by an optional `x` because the preceding
greedy `\s*` already consumes spaces. -/
def stripCheckbox (t : List Char) : List Char :=
  match dropSpaces t with
  | '[' :: r =>
    let r1 := dropSpaces r
    let r2 := match r1 with
      | 'x' :: rr => dropSpaces rr
      | _ => r1
    match r2 with
    | ']' :: rest => dropSpaces rest
    | _ => t
  | _ => t

/-- Count of tab characters in a character list (Python `s.count('\t')`). -/
def countTabs (l : List Char) : Nat :=
  l.countP (fun c => decide (c = '\t'))

/-- Python slice `s[a:b]` on a character list. -/
def sliceList (l : List Char) (a b : Nat) : List Char :=
  (l.take b).drop a

/-- `countTabs` of a Python prefix slice `s[:pos]` — the "static rescan"
tab adjustment of the request generator. -/
def tabsBeforePos (l : List Char) (pos : Nat) : Nat :=
  countTabs (l.take pos)

/-- Data model: `FormatRange` dataclass of the converter. -/
structure FormatRange where
  start_index : Nat
  end_index : Nat
  format_type : String
  level : Option Nat := none
  url : Option (List Char) := none
  text : Option (List Char) := none
deriving DecidableEq, Repr

/-- Data model: `TableCell` dataclass. -/
structure TableCell where
  content : List Char
  is_header : Bool := false
  format_ranges : List FormatRange := []
deriving DecidableEq, Repr

/-- Data model: `TableData` dataclass (fields after `__post_init__`). -/
structure TableData where
  insert_index : Nat
  rows : List (List TableCell)
  num_rows : Nat := 0
  num_cols : Nat := 0
deriving DecidableEq, Repr

/-- `TableData.__post_init__`: `num_rows`/`num_cols` are derived from
`rows` when `rows` is non-empty, otherwise stay at their default 0. -/
def mkTableData (insert_index : Nat) (rows : List (List TableCell)) : TableData :=
  if rows.isEmpty then ⟨insert_index, rows, 0, 0⟩
  else ⟨insert_index, rows, rows.length, (rows.map List.length).foldr max 0⟩

/-- Data model: an element of `ConversionResult.list_ranges` (the Python
code uses a dict with these four keys). -/
structure ListRange where
  start_index : Nat
  end_index : Nat
  ordered : Bool
  nesting_level : Nat
deriving DecidableEq, Repr

/-- Data model: `ConversionResult` dataclass. -/
structure ConversionResult where
  plain_text : List Char
  format_ranges : List FormatRange := []
  list_ranges : List ListRange := []
  tables : List TableData := []
deriving DecidableEq, Repr

/-- Walker state: the growing `ConversionResult` together with the
converter's `current_index` cursor. -/
structure ConvState where
  plain_text : List Char := []
  format_ranges : List FormatRange := []
  list_ranges : List ListRange := []
  tables : List TableData := []
  current_index : Nat := 1
deriving DecidableEq, Repr

/-- The `ConversionResult` carried by a walker state. -/
def ConvState.result (st : ConvState) : ConversionResult :=
  ⟨st.plain_text, st.format_ranges, st.list_ranges, st.tables⟩

/-- Children of a markdown-it `inline` token, restricted to the
vocabulary the converter inspects. -/
inductive InlineChild where
  | text (content : List Char)
  | strongOpen
  | strongClose
  | emOpen
  | emClose
  | codeInline (content : List Char)
  | softbreak
  | hardbreak
  | linkOpen (href : List Char)
  | linkClose
  | unknown
deriving DecidableEq, Repr

/-- Block-level markdown-it tokens the converter dispatches on
(`code_block` and `fence` are handled identically and share the
`codeBlock` constructor). -/
inductive Tok where
  | headingOpen (level : Nat)
  | headingClose
  | paragraphOpen
  | paragraphClose
  | bulletListOpen
  | bulletListClose
  | orderedListOpen
  | orderedListClose
  | listItemOpen
  | listItemClose
  | blockquoteOpen
  | blockquoteClose
  | codeBlock (content : List Char)
  | hr
  | tableOpen
  | tableClose
  | theadOpen
  | theadClose
  | tbodyOpen
  | tbodyClose
  | trOpen
  | trClose
  | thOpen
  | thClose
  | tdOpen
  | tdClose
  | inline (children : List InlineChild)
  | unknown
deriving DecidableEq, Repr

/-- `_get_text_and_skip_count`: collect the `text` children up to the
matching close marker; the returned list is the sibling suffix after the
close marker (after the end of the siblings when no close is found,
mirroring `i += skip_count` running past the end). -/
def get_text_and_skip_count (close : InlineChild) :
    List InlineChild → List Char × List InlineChild
  | [] => ([], [])
  | c :: cs =>
    if c = close then ([], cs)
    else
      match c with
      | .text s =>
        let r := get_text_and_skip_count close cs
        (s ++ r.1, r.2)
      | _ => get_text_and_skip_count close cs

/-- Loop body of `_process_inline`, with the accumulated text and the
format ranges appended so far.  `ci` is the (unchanged) `current_index`
of the converter during the call. -/
def process_inline_go :
    Nat → List InlineChild → Nat → List Char → List FormatRange →
    List Char × List FormatRange
  | 0, _, _, acc, rs => (acc, rs)
  | _ + 1, [], _, acc, rs => (acc, rs)
  | fuel + 1, .text s :: rest, ci, acc, rs =>
      process_inline_go fuel rest ci (acc ++ s) rs
  | fuel + 1, .strongOpen :: rest, ci, acc, rs =>
      let s := ci + acc.length
      let r := get_text_and_skip_count .strongClose rest
      process_inline_go fuel r.2 ci (acc ++ r.1)
        (rs ++ [⟨s, s + r.1.length, "bold", none, none, some r.1⟩])
  | fuel + 1, .emOpen :: rest, ci, acc, rs =>
      let s := ci + acc.length
      let r := get_text_and_skip_count .emClose rest
      process_inline_go fuel r.2 ci (acc ++ r.1)
        (rs ++ [⟨s, s + r.1.length, "italic", none, none, some r.1⟩])
  | fuel + 1, .codeInline s :: rest, ci, acc, rs =>
      let st := ci + acc.length
      process_inline_go fuel rest ci (acc ++ s)
        (rs ++ [⟨st, st + s.length, "code_inline", none, none, some s⟩])
  | fuel + 1, .softbreak :: rest, ci, acc, rs =>
      process_inline_go fuel rest ci (acc ++ ['\n']) rs
  | fuel + 1, .hardbreak :: rest, ci, acc, rs =>
      process_inline_go fuel rest ci (acc ++ ['\n']) rs
  | fuel + 1, .linkOpen href :: rest, ci, acc, rs =>
      let s := ci + acc.length
      let r := get_text_and_skip_count .linkClose rest
      process_inline_go fuel r.2 ci (acc ++ r.1)
        (rs ++ [⟨s, s + r.1.length, "link", none, some href, some r.1⟩])
  | fuel + 1, _ :: rest, ci, acc, rs =>
      process_inline_go fuel rest ci acc rs

/-- `_process_inline`: returns the contributed plain text and the format
ranges it appends to the result, in order. -/
def process_inline (children : List InlineChild) (ci : Nat) :
    List Char × List FormatRange :=
  process_inline_go (children.length + 1) children ci [] []

/-- `_extract_cell_text`: plain text of an inline token for table cells
(format markers dropped, `code_inline` content kept). -/
def extract_cell_text : List InlineChild → List Char
  | [] => []
  | .text s :: cs => s ++ extract_cell_text cs
  | .codeInline s :: cs => s ++ extract_cell_text cs
  | _ :: cs => extract_cell_text cs

/-- Shared loop of `_process_heading` / `_process_paragraph`: scan the
token suffix up to `close`, processing every `inline` token (appending
its format ranges and advancing the cursor by its text length).  Returns
(accumulated text, state, suffix after the close token). -/
def inline_scan (close : Tok) : List Tok → ConvState → List Char × ConvState × List Tok
  | [], st => ([], st, [])
  | t :: rest, st =>
    if t = close then ([], st, rest)
    else
      match t with
      | .inline cs =>
        let p := process_inline cs st.current_index
        let st1 : ConvState :=
          { st with current_index := st.current_index + p.1.length,
                    format_ranges := st.format_ranges ++ p.2 }
        let q := inline_scan close rest st1
        (p.1 ++ q.1, q.2.1, q.2.2)
      | _ => inline_scan close rest st

/-- `_process_heading` (called with the suffix after `heading_open`). -/
def process_heading (level : Nat) (rest : List Tok) (st : ConvState) :
    ConvState × List Tok :=
  let start_index := st.current_index
  let r := inline_scan Tok.headingClose rest st
  let st1 := r.2.1
  let fullText := r.1 ++ ['\n']
  ({ st1 with current_index := st1.current_index + 1,
              plain_text := st1.plain_text ++ fullText,
              format_ranges := st1.format_ranges ++
                [⟨start_index, st1.current_index, "heading", some level, none,
                  some (stripPy fullText)⟩] }, r.2.2)

/-- `_process_paragraph` (called with the suffix after `paragraph_open`). -/
def process_paragraph (rest : List Tok) (st : ConvState) : ConvState × List Tok :=
  let r := inline_scan Tok.paragraphClose rest st
  let st1 := r.2.1
  ({ st1 with current_index := st1.current_index + 1,
              plain_text := st1.plain_text ++ r.1 ++ ['\n'] }, r.2.2)

/-- Loop of `_process_blockquote`: process inner paragraphs until
`blockquote_close`, which is left in the returned suffix (the Python
function returns the index of the close token). -/
def blockquote_scan : Nat → List Tok → ConvState → ConvState × List Tok
  | 0, toks, st => (st, toks)
  | _ + 1, [], st => (st, [])
  | fuel + 1, t :: rest, st =>
    if t = Tok.blockquoteClose then (st, t :: rest)
    else if t = Tok.paragraphOpen then
      let r := process_paragraph rest st
      blockquote_scan fuel r.2 r.1
    else blockquote_scan fuel rest st

/-- `_process_blockquote` (suffix after `blockquote_open`): the wrapping
blockquote range is recorded after the inner paragraphs' own ranges. -/
def process_blockquote (rest : List Tok) (st : ConvState) : ConvState × List Tok :=
  let start_index := st.current_index
  let r := blockquote_scan (rest.length + 1) rest st
  let st1 := r.1
  ({ st1 with format_ranges := st1.format_ranges ++
      [⟨start_index, st1.current_index, "blockquote", none, none, none⟩] }, r.2)

/-- `_process_code_block` (also handles `fence` tokens). -/
def process_code_block (content : List Char) (st : ConvState) : ConvState :=
  let start_index := st.current_index
  let st1 : ConvState :=
    { st with plain_text := st.plain_text ++ content ++ ['\n'],
              current_index := st.current_index + content.length + 1 }
  { st1 with format_ranges := st1.format_ranges ++
      [⟨start_index, st1.current_index - 1, "code_block", none, none, some content⟩] }

/-- `_process_hr`: appends the fixed literal `"---\n"` and advances the
cursor by the design constant 4. -/
def process_hr (st : ConvState) : ConvState :=
  { st with plain_text := st.plain_text ++ ['-', '-', '-', '\n'],
            current_index := st.current_index + 4 }

/-- Cell loop of `_process_table`: scan to the cell's close token; each
`inline` token replaces the collected cell content. -/
def table_cell_scan : List Tok → List Char → List Char × List Tok
  | [], content => (content, [])
  | .thClose :: rest, content => (content, rest)
  | .tdClose :: rest, content => (content, rest)
  | .inline cs :: rest, _ => table_cell_scan rest (extract_cell_text cs)
  | _ :: rest, content => table_cell_scan rest content

/-- Row/cell loop of `_process_table`, carrying (rows, current_row,
in_header); a row is appended at `tr_close` only when non-empty. -/
def table_scan :
    Nat → List Tok → List (List TableCell) → List TableCell → Bool →
    List (List TableCell) × List Tok
  | 0, toks, rows, _, _ => (rows, toks)
  | _ + 1, [], rows, _, _ => (rows, [])
  | _ + 1, .tableClose :: rest, rows, _, _ => (rows, rest)
  | fuel + 1, .theadOpen :: rest, rows, cur, _ => table_scan fuel rest rows cur true
  | fuel + 1, .theadClose :: rest, rows, cur, _ => table_scan fuel rest rows cur false
  | fuel + 1, .tbodyOpen :: rest, rows, cur, h => table_scan fuel rest rows cur h
  | fuel + 1, .tbodyClose :: rest, rows, cur, h => table_scan fuel rest rows cur h
  | fuel + 1, .trOpen :: rest, rows, _, h => table_scan fuel rest rows [] h
  | fuel + 1, .trClose :: rest, rows, cur, h =>
      table_scan fuel rest (if cur.isEmpty then rows else rows ++ [cur]) cur h
  | fuel + 1, .thOpen :: rest, rows, cur, h =>
      let r := table_cell_scan rest []
      table_scan fuel r.2 rows (cur ++ [⟨r.1, h, []⟩]) h
  | fuel + 1, .tdOpen :: rest, rows, cur, h =>
      let r := table_cell_scan rest []
      table_scan fuel r.2 rows (cur ++ [⟨r.1, h, []⟩]) h
  | fuel + 1, _ :: rest, rows, cur, h => table_scan fuel rest rows cur h

/-- `_process_table` (suffix after `table_open`): when at least one row
was produced, store a `TableData` and append a single newline
placeholder; the cell text itself never enters the buffer. -/
def process_table (rest : List Tok) (st : ConvState) : ConvState × List Tok :=
  let r := table_scan (rest.length + 1) rest [] [] false
  if r.1.isEmpty then (st, r.2)
  else
    ({ st with tables := st.tables ++ [mkTableData st.current_index r.1],
               plain_text := st.plain_text ++ ['\n'],
               current_index := st.current_index + 1 }, r.2)

/-- Commit a list item: append the trailing newline, advance the cursor
and record the `ListItemRange` `[item_start, current_index)`. -/
def commit_item (item_start : Nat) (ordered : Bool) (lvl : Nat) (st : ConvState) :
    ConvState :=
  let st1 : ConvState :=
    { st with plain_text := st.plain_text ++ ['\n'],
              current_index := st.current_index + 1 }
  { st1 with list_ranges := st1.list_ranges ++
      [⟨item_start, st1.current_index, ordered, lvl⟩] }

/-- Paragraph loop inside a list item: inline ranges are recorded first,
then the rendered text is checkbox-stripped and appended only when it is
not blank (in which case `has_content` is set). -/
def item_paragraph : List Tok → ConvState → Bool → ConvState × Bool × List Tok
  | [], st, hc => (st, hc, [])
  | .paragraphClose :: rest, st, hc => (st, hc, rest)
  | .inline cs :: rest, st, hc =>
      let p := process_inline cs st.current_index
      let st1 : ConvState := { st with format_ranges := st.format_ranges ++ p.2 }
      let tc := stripCheckbox p.1
      if hasNonSpace tc then
        item_paragraph rest
          { st1 with plain_text := st1.plain_text ++ tc,
                     current_index := st1.current_index + tc.length } true
      else item_paragraph rest st1 hc
  | _ :: rest, st, hc => item_paragraph rest st hc

mutual

/-- `_process_list` (suffix after the list-open token). -/
def process_list (fuel : Nat) (ordered : Bool) (lvl : Nat) (toks : List Tok)
    (st : ConvState) : ConvState × List Tok :=
  match fuel with
  | 0 => (st, toks)
  | fuel + 1 => list_items fuel ordered lvl toks st
  termination_by structural fuel

/-- Outer loop of `_process_list` over list items; the list-close token
ends the loop.  An item's leading nesting tabs are emitted after
`item_start` is captured, so they fall inside the item's range. -/
def list_items (fuel : Nat) (ordered : Bool) (lvl : Nat) (toks : List Tok)
    (st : ConvState) : ConvState × List Tok :=
  match fuel with
  | 0 => (st, toks)
  | fuel + 1 =>
    match toks with
    | [] => (st, [])
    | .bulletListClose :: rest => (st, rest)
    | .orderedListClose :: rest => (st, rest)
    | .listItemOpen :: rest =>
        let item_start := st.current_index
        let st1 : ConvState :=
          { st with plain_text := st.plain_text ++ List.replicate lvl '\t',
                    current_index := st.current_index + lvl }
        let r := item_content fuel ordered lvl item_start rest st1 false
        let st2 := if r.2.1 then commit_item item_start ordered lvl r.1 else r.1
        list_items fuel ordered lvl r.2.2 st2
    | _ :: rest => list_items fuel ordered lvl rest st
  termination_by structural fuel

/-- Inner loop of `_process_list` over one item's children; stops at
`list_item_close` (left in the suffix, the outer loop skips it).  A
nested list first commits the pending item content, then recurses one
nesting level deeper. -/
def item_content (fuel : Nat) (ordered : Bool) (lvl : Nat) (item_start : Nat)
    (toks : List Tok) (st : ConvState) (hc : Bool) : ConvState × Bool × List Tok :=
  match fuel with
  | 0 => (st, hc, toks)
  | fuel + 1 =>
    match toks with
    | [] => (st, hc, [])
    | .listItemClose :: rest => (st, hc, .listItemClose :: rest)
    | .paragraphOpen :: rest =>
        let r := item_paragraph rest st hc
        item_content fuel ordered lvl item_start r.2.2 r.1 r.2.1
    | .bulletListOpen :: rest =>
        let st1 := if hc then commit_item item_start ordered lvl st else st
        let r := process_list fuel false (lvl + 1) rest st1
        item_content fuel ordered lvl item_start r.2 r.1 false
    | .orderedListOpen :: rest =>
        let st1 := if hc then commit_item item_start ordered lvl st else st
        let r := process_list fuel true (lvl + 1) rest st1
        item_content fuel ordered lvl item_start r.2 r.1 false
    | _ :: rest => item_content fuel ordered lvl item_start rest st hc
  termination_by structural fuel

end

/-- `_process_tokens`: the top-level dispatch loop of the walker. -/
def process_tokens : Nat → List Tok → ConvState → ConvState
  | 0, _, st => st
  | _ + 1, [], st => st
  | fuel + 1, .headingOpen lvl :: rest, st =>
      let r := process_heading lvl rest st
      process_tokens fuel r.2 r.1
  | fuel + 1, .paragraphOpen :: rest, st =>
      let r := process_paragraph rest st
      process_tokens fuel r.2 r.1
  | fuel + 1, .bulletListOpen :: rest, st =>
      let r := process_list (3 * rest.length + 3) false 0 rest st
      process_tokens fuel r.2 r.1
  | fuel + 1, .orderedListOpen :: rest, st =>
      let r := process_list (3 * rest.length + 3) true 0 rest st
      process_tokens fuel r.2 r.1
  | fuel + 1, .blockquoteOpen :: rest, st =>
      let r := process_blockquote rest st
      process_tokens fuel r.2 r.1
  | fuel + 1, .codeBlock content :: rest, st =>
      process_tokens fuel rest (process_code_block content st)
  | fuel + 1, .hr :: rest, st =>
      process_tokens fuel rest (process_hr st)
  | fuel + 1, .tableOpen :: rest, st =>
      let r := process_table rest st
      process_tokens fuel r.2 r.1
  | fuel + 1, _ :: rest, st =>
      process_tokens fuel rest st

/-- `markdown_to_gdocs`, starting from the (external) tokenizer's token
stream: walk the tokens from a fresh state with `current_index = 1`. -/
def markdown_to_gdocs (toks : List Tok) : ConvState :=
  process_tokens (toks.length + 1) toks {}

/-- Batch-update requests emitted by `generate_batch_requests`.  Each
constructor stands for one request shape of the Python code; fields are
the data that varies between requests (ranges, indices, texts, names),
while fixed payloads (colors, sizes, border styles) are implied by the
constructor. -/
inductive Request where
  | createParagraphBullets (startIndex endIndex : Int) (bulletPreset : String)
  | updateParagraphStyleNamed (startIndex endIndex : Int) (namedStyleType : String)
  | updateTextStyleBold (startIndex endIndex : Int)
  | updateTextStyleItalic (startIndex endIndex : Int)
  | updateTextStyleFontSize (startIndex endIndex : Int)
  | updateTextStyleLink (startIndex endIndex : Int) (url : Option (List Char))
  | updateTextStyleCodeBlock (startIndex endIndex : Int)
  | updateParagraphStyleIndent (startIndex endIndex : Int)
  | updateParagraphStyleBlockquote (startIndex endIndex : Int)
  | updateTextStyleBackground (startIndex endIndex : Int)
  | insertTable (rows columns : Nat) (index : Int)
  | insertText (index : Int) (text : List Char)
  | updateTableCellStyleBorder (tableStart : Int) (rowSpan columnSpan : Nat)
  | updateTableCellStyleHeaderBg (tableStart : Int) (columnSpan : Nat)
  | updateTextStyleHeaderCell (startIndex endIndex : Int)
deriving DecidableEq, Repr

/-- True for the list-bulletizing request shape. -/
def Request.isBulletize : Request → Bool
  | .createParagraphBullets _ _ _ => true
  | _ => false

/-- A list group of `generate_batch_requests` (the `current_group` dict). -/
structure ListGroup where
  ordered : Bool
  start_index : Nat
  end_index : Nat
deriving DecidableEq, Repr

/-- Grouping loop of `generate_batch_requests` over
`conversion.list_ranges[1:]`: a range merges into the current group iff
it has the same `ordered` flag and starts at or before the group's
running end; otherwise the group is flushed and a new one starts. -/
def compute_list_groups_loop (groups : List ListGroup) (cur : ListGroup) :
    List ListRange → List ListGroup
  | [] => groups ++ [cur]
  | r :: rs =>
    if r.ordered = cur.ordered ∧ r.start_index ≤ cur.end_index then
      compute_list_groups_loop groups
        { cur with end_index := max cur.end_index r.end_index } rs
    else
      compute_list_groups_loop (groups ++ [cur])
        ⟨r.ordered, r.start_index, r.end_index⟩ rs

/-- The list groups computed from `conversion.list_ranges`. -/
def compute_list_groups : List ListRange → List ListGroup
  | [] => []
  | r :: rs => compute_list_groups_loop [] ⟨r.ordered, r.start_index, r.end_index⟩ rs

/-- Emission loop over the list groups, carrying the cumulative
`tab_offset`: one `createParagraphBullets` per group at
`[start - tab_offset, end - 1 - tab_offset)`, then the tabs inside the
group's slice of the original plain text are added to the offset. -/
def bullet_loop (pt : List Char) (tab_offset : Nat) : List ListGroup → List Request
  | [] => []
  | g :: gs =>
    let preset := if g.ordered then "NUMBERED_DECIMAL_ALPHA_ROMAN"
                  else "BULLET_DISC_CIRCLE_SQUARE"
    let tabs_in_group := countTabs (sliceList pt g.start_index g.end_index)
    Request.createParagraphBullets ((g.start_index : Int) - tab_offset)
        ((g.end_index : Int) - 1 - tab_offset) preset
      :: bullet_loop pt (tab_offset + tabs_in_group) gs

/-- Step 1 of `generate_batch_requests`: the bulletizing requests
(guarded by `if conversion.list_ranges:` in the Python code). -/
def bullet_requests (c : ConversionResult) : List Request :=
  if c.list_ranges.isEmpty then []
  else bullet_loop c.plain_text 0 (compute_list_groups c.list_ranges)

/-- Body of the step-2 styling loop for one `FormatRange`: every branch
first recomputes `tabs_before` by a static scan of the original plain
text before `start_index`.  For `heading` ranges the Python code reads
`fmt.level`, which the walker always sets; on a `none` level the Python
code would raise `TypeError`, here `getD 1` keeps the function total. -/
def format_requests_for (pt : List Char) (fmt : FormatRange) : List Request :=
  let tabs_before := tabsBeforePos pt fmt.start_index
  let s : Int := (fmt.start_index : Int) - tabs_before
  let e : Int := (fmt.end_index : Int) - tabs_before
  if fmt.format_type = "heading" then
    let style_type := if fmt.level = some 1 then "TITLE"
                      else "HEADING_" ++ toString (fmt.level.getD 1 - 1)
    [.updateParagraphStyleNamed s e style_type]
  else if fmt.format_type = "bold" then [.updateTextStyleBold s e]
  else if fmt.format_type = "italic" then [.updateTextStyleItalic s e]
  else if fmt.format_type = "code_inline" then [.updateTextStyleFontSize s e]
  else if fmt.format_type = "link" then [.updateTextStyleLink s e fmt.url]
  else if fmt.format_type = "code_block" then
    [.updateTextStyleCodeBlock s e, .updateParagraphStyleIndent s e]
  else if fmt.format_type = "blockquote" then
    [.updateParagraphStyleBlockquote s e, .updateTextStyleBackground s e]
  else []

/-- Step 2 of `generate_batch_requests`: styling requests for the format
ranges, in original encounter order. -/
def style_requests (c : ConversionResult) : List Request :=
  c.format_ranges.foldr (fun fmt acc => format_requests_for c.plain_text fmt ++ acc) []

/-- Cell-position scan for one row of a freshly created table: each cell
occupies the current position and advances it by 2; returns the row's
positions and the position after the row's cells. -/
def row_positions (cur : Int) : List TableCell → List Int × Int
  | [] => ([], cur)
  | _ :: cs =>
    let r := row_positions (cur + 2) cs
    (cur :: r.1, r.2)

/-- Cell positions of the whole empty table, one extra position per row
boundary. -/
def cell_positions (cur : Int) : List (List TableCell) → List (List Int)
  | [] => []
  | row :: rows =>
    let r := row_positions cur row
    r.1 :: cell_positions (r.2 + 1) rows

/-- Insert-text requests of one row, visited in reverse column order;
empty cells are skipped. -/
def row_cell_requests (row : List TableCell) (ps : List Int) : List Request :=
  ((row.zip ps).reverse).foldr
    (fun cp acc =>
      (if cp.1.content.isEmpty then [] else [Request.insertText cp.2 cp.1.content]) ++ acc)
    []

/-- Insert-text requests of the whole table, rows visited last-to-first. -/
def cell_requests (rows : List (List TableCell)) (poss : List (List Int)) :
    List Request :=
  ((rows.zip poss).reverse).foldr (fun p acc => row_cell_requests p.1 p.2 ++ acc) []

/-- The Python header check `table.rows[0][0].is_header`; on a first row
that is empty the Python code would raise `IndexError` — unreachable
from the walker, whose stored rows are never empty. -/
def first_cell_header : List (List TableCell) → Bool
  | (c :: _) :: _ => c.is_header
  | _ => false

/-- Header-cell styling loop: a forward-running offset that advances by
`len(content) + 2` per cell, emitting one bold/foreground request per
non-empty header cell. -/
def header_cell_requests (start : Int) : List TableCell → List Request
  | [] => []
  | c :: cs =>
    (if c.content.isEmpty then []
     else [Request.updateTextStyleHeaderCell start (start + c.content.length)]) ++
    header_cell_requests (start + c.content.length + 2) cs

/-- Requests of `_generate_table_requests` for one table: create the
structure, insert cell text in reverse order against precomputed
positions, style the borders, then style the header row when the first
cell is a header. -/
def table_requests_for (pt : List Char) (t : TableData) : List Request :=
  let tabs_before := countTabs (pt.take t.insert_index)
  let adjusted : Int := (t.insert_index : Int) - tabs_before
  Request.insertTable t.num_rows t.num_cols adjusted
    :: (cell_requests t.rows (cell_positions (adjusted + 4) t.rows)
        ++ [Request.updateTableCellStyleBorder (adjusted + 1) t.num_rows t.num_cols]
        ++ (if 0 < t.num_rows ∧ first_cell_header t.rows then
              Request.updateTableCellStyleHeaderBg (adjusted + 1) t.num_cols
                :: header_cell_requests (adjusted + 4) (t.rows.headD [])
            else []))

/-- `_generate_table_requests`: tables processed in reverse declaration
order. -/
def generate_table_requests (c : ConversionResult) : List Request :=
  (c.tables.reverse).foldr (fun t acc => table_requests_for c.plain_text t ++ acc) []

/-- State of `generate_batch_requests`: the (read-only) conversion result
and the growing request list. -/
structure GenState where
  conversion : ConversionResult
  requests : List Request
deriving DecidableEq, Repr

/-- Step 1 as a state transformer: append the bulletizing requests. -/
def bullet_phase (s : GenState) : GenState :=
  { s with requests := s.requests ++ bullet_requests s.conversion }

/-- Step 2 as a state transformer: append the styling requests. -/
def style_phase (s : GenState) : GenState :=
  { s with requests := s.requests ++ style_requests s.conversion }

/-- Step 3 as a state transformer: append the table requests (guarded by
`if conversion.tables:` in the Python code). -/
def table_phase (s : GenState) : GenState :=
  { s with requests := s.requests ++
      (if s.conversion.tables.isEmpty then [] else generate_table_requests s.conversion) }

/-- The full run of `generate_batch_requests` over its state. -/
def generate_run (c : ConversionResult) : GenState :=
  table_phase (style_phase (bullet_phase ⟨c, []⟩))

/-- `generate_batch_requests`: the ordered request list. -/
def generate_batch_requests (c : ConversionResult) : List Request :=
  (generate_run c).requests

/-- Token stream markdown-it produces for the markdown `"**bold** text"`
(scenario B): one paragraph whose inline token holds a strong span
followed by plain text. -/
def toksScenarioB : List Tok :=
  [.paragraphOpen,
   .inline [.strongOpen, .text "bold".toList, .strongClose, .text " text".toList],
   .paragraphClose]

/-- Token stream markdown-it produces for the markdown `"- [ ] **b**"`:
a one-item bullet list whose rendered text starts with a checkbox
marker followed by a bold span. -/
def toksCheckboxBold : List Tok :=
  [.bulletListOpen, .listItemOpen, .paragraphOpen,
   .inline [.text "[ ] ".toList, .strongOpen, .text "b".toList, .strongClose],
   .paragraphClose, .listItemClose, .bulletListClose]

/-- Token stream markdown-it produces for a two-row, two-column table
with a header row (scenario E), e.g. `"| A | B |\n|---|---|\n| c | d |"`. -/
def toksScenarioE : List Tok :=
  [.tableOpen, .theadOpen, .trOpen,
   .thOpen, .inline [.text "A".toList], .thClose,
   .thOpen, .inline [.text "B".toList], .thClose,
   .trClose, .theadClose, .tbodyOpen, .trOpen,
   .tdOpen, .inline [.text "c".toList], .tdClose,
   .tdOpen, .inline [.text "d".toList], .tdClose,
   .trClose, .tbodyClose, .tableClose]

/-- C6 counterexample: for the scenario-B input the returned plain text
is `"bold text\n"` — the paragraph handler always appends a trailing
newline — and therefore not `"bold text"` as the claim states. -/
theorem c6_counterexample :
    (markdown_to_gdocs toksScenarioB).result.plain_text ≠ "bold text".toList := by
  decide

/-- C6 (amended): for the input `"**bold** text"`, `markdown_to_gdocs`
returns plain text `"bold text\n"` and exactly one `FormatRange`, of
kind bold, with `start_index` 1 and `end_index` 5. -/
theorem c6_bold_scenario :
    (markdown_to_gdocs toksScenarioB).result =
      ⟨"bold text\n".toList,
       [⟨1, 5, "bold", none, none, some "bold".toList⟩], [], []⟩ := by
  decide

/-- C4: the failing input `"- [ ] **b**"` evaluated through the code:
the bold range is recorded before checkbox stripping shortens the
appended text, so its `end_index` 6 exceeds `length(plain_text) + 1 = 3`
and the claimed invariant `end_index ≤ length(plain_text) + 1` fails. -/
theorem c4_range_bound_violation :
    (markdown_to_gdocs toksCheckboxBold).result.plain_text = ['b', '\n'] ∧
    (markdown_to_gdocs toksCheckboxBold).result.format_ranges =
      [⟨5, 6, "bold", none, none, some ['b']⟩] ∧
    ¬ (6 ≤ (markdown_to_gdocs toksCheckboxBold).result.plain_text.length + 1) := by
  refine ⟨by decide, by decide, by decide⟩

/-- C5: the two-row, two-column header table scenario.  Conversion
stores exactly one 2×2 `TableData` and appends only the single newline
placeholder; the generator emits the create-table request, the four
insert-text requests in reverse row/column order against the positions
precomputed on the empty table (first cell interior at `adjusted + 4`,
2 per cell, 1 extra per row boundary), the border request, and the
header-row styling requests for row 0 only. -/
theorem c5_table_scenario :
    (markdown_to_gdocs toksScenarioE).result =
      ⟨['\n'], [], [],
       [⟨1, [[⟨"A".toList, true, []⟩, ⟨"B".toList, true, []⟩],
             [⟨"c".toList, false, []⟩, ⟨"d".toList, false, []⟩]], 2, 2⟩]⟩ ∧
    generate_batch_requests (markdown_to_gdocs toksScenarioE).result =
      [.insertTable 2 2 1,
       .insertText 12 "d".toList, .insertText 10 "c".toList,
       .insertText 7 "B".toList, .insertText 5 "A".toList,
       .updateTableCellStyleBorder 2 2 2,
       .updateTableCellStyleHeaderBg 2 2,
       .updateTextStyleHeaderCell 5 6, .updateTextStyleHeaderCell 8 9] := by
  refine ⟨by decide, by decide⟩

/-- Decomposition of `generate_batch_requests` into its three phases,
in emission order. -/
theorem generate_batch_requests_decomp (c : ConversionResult) :
    generate_batch_requests c =
      bullet_requests c ++ style_requests c ++
        (if c.tables.isEmpty then [] else generate_table_requests c) := by
  simp [generate_batch_requests, generate_run, table_phase, style_phase, bullet_phase]

/-- With an empty table list the table pass yields no requests. -/
theorem generate_table_requests_nil (c : ConversionResult) (h : c.tables = []) :
    generate_table_requests c = [] := by
  simp [generate_table_requests, h]

/-- C9: `generate_batch_requests` never mutates the `ConversionResult`
it is given — the conversion carried through the whole run, and through
each of the three phases (including the table sub-pass), is the input
itself; only the request list grows. -/
theorem c9_no_mutation :
    (∀ c : ConversionResult, (generate_run c).conversion = c) ∧
    (∀ s : GenState, (bullet_phase s).conversion = s.conversion) ∧
    (∀ s : GenState, (style_phase s).conversion = s.conversion) ∧
    (∀ s : GenState, (table_phase s).conversion = s.conversion) := by
  exact ⟨fun _ => rfl, fun _ => rfl, fun _ => rfl, fun _ => rfl⟩

/-- Modelled from the spec sentence of C1: grouping of the list-item
ranges by one left-to-right scan — a range merges into the current group
iff its `ordered` flag equals the group's and its start is at most the
group's running end, the group's end becoming the max of the two ends. -/
def specGroupsGo (cur : ListGroup) : List ListRange → List ListGroup
  | [] => [cur]
  | r :: rs =>
    if r.ordered = cur.ordered ∧ r.start_index ≤ cur.end_index then
      specGroupsGo { cur with end_index := max cur.end_index r.end_index } rs
    else cur :: specGroupsGo ⟨r.ordered, r.start_index, r.end_index⟩ rs

/-- Modelled from the spec sentence of C1: the groups of a list of
list-item ranges (empty when there are none). -/
def specGroups : List ListRange → List ListGroup
  | [] => []
  | r :: rs => specGroupsGo ⟨r.ordered, r.start_index, r.end_index⟩ rs

/-- Modelled from the spec sentence of C1: per group, in order, exactly
one bulletizing request at `[start - tabOffset, end - 1 - tabOffset)`,
with `tabOffset` increased afterwards by the tab count of the group's
span of the original plain text. -/
def specBulletEmit (pt : List Char) (tabOffset : Nat) : List ListGroup → List Request
  | [] => []
  | g :: gs =>
    Request.createParagraphBullets ((g.start_index : Int) - tabOffset)
        ((g.end_index : Int) - 1 - tabOffset)
        (if g.ordered then "NUMBERED_DECIMAL_ALPHA_ROMAN"
         else "BULLET_DISC_CIRCLE_SQUARE")
      :: specBulletEmit pt
          (tabOffset + countTabs (sliceList pt g.start_index g.end_index)) gs

/-- The grouping loop of the code equals the spec-described scan, up to
the accumulated group list. -/
theorem compute_list_groups_loop_eq (rs : List ListRange) :
    ∀ (groups : List ListGroup) (cur : ListGroup),
      compute_list_groups_loop groups cur rs = groups ++ specGroupsGo cur rs := by
  induction rs with
  | nil => intro groups cur; simp [compute_list_groups_loop, specGroupsGo]
  | cons r rs ih =>
    intro groups cur
    by_cases h : r.ordered = cur.ordered ∧ r.start_index ≤ cur.end_index
    · simp [compute_list_groups_loop, specGroupsGo, h, ih]
    · simp [compute_list_groups_loop, specGroupsGo, h, ih]

/-- The code's grouping equals the spec-described grouping. -/
theorem compute_list_groups_eq_spec (rs : List ListRange) :
    compute_list_groups rs = specGroups rs := by
  cases rs with
  | nil => rfl
  | cons r rs => simpa [compute_list_groups, specGroups] using
      compute_list_groups_loop_eq rs [] ⟨r.ordered, r.start_index, r.end_index⟩

/-- The code's bullet-emission loop equals the spec-described emission. -/
theorem bullet_loop_eq_spec (pt : List Char) (gs : List ListGroup) :
    ∀ off : Nat, bullet_loop pt off gs = specBulletEmit pt off gs := by
  induction gs with
  | nil => intro off; rfl
  | cons g gs ih => intro off; simp [bullet_loop, specBulletEmit, ih]

/-- The bulletizing phase of the code is exactly the spec-described
requests of the spec-described groups. -/
theorem bullet_requests_eq_spec (c : ConversionResult) :
    bullet_requests c = specBulletEmit c.plain_text 0 (specGroups c.list_ranges) := by
  cases h : c.list_ranges with
  | nil => simp [bullet_requests, h, specGroups, specBulletEmit]
  | cons r rs =>
    simp [bullet_requests, h, ← compute_list_groups_eq_spec,
      bullet_loop_eq_spec, compute_list_groups]

/-- One request per group. -/
theorem specBulletEmit_length (pt : List Char) (gs : List ListGroup) :
    ∀ off : Nat, (specBulletEmit pt off gs).length = gs.length := by
  induction gs with
  | nil => intro off; rfl
  | cons g gs ih => intro off; simp [specBulletEmit, ih]

/-- Every emitted request of the bulletizing phase is a
`createParagraphBullets`. -/
theorem specBulletEmit_bulletize (pt : List Char) (gs : List ListGroup) :
    ∀ (off : Nat) (r : Request), r ∈ specBulletEmit pt off gs →
      r.isBulletize = true := by
  induction gs with
  | nil => intro off r h; simp [specBulletEmit] at h
  | cons g gs ih =>
    intro off r h
    simp only [specBulletEmit, List.mem_cons] at h
    rcases h with h | h
    · subst h; rfl
    · exact ih _ r h

/-- C1: the returned request list starts with exactly one bulletizing
request per group of the left-to-right grouping scan (merge iff same
`ordered` flag and `start ≤` running group end, end = max of ends), at
`[start - tabOffset, end - 1 - tabOffset)` with the cumulative
`tabOffset` increased after each group by the tab count of the group's
span of the original plain text; these bulletizing requests precede all
styling and table requests. -/
theorem c1_bullet_grouping (c : ConversionResult) :
    generate_batch_requests c =
      specBulletEmit c.plain_text 0 (specGroups c.list_ranges) ++
        style_requests c ++ generate_table_requests c ∧
    (specBulletEmit c.plain_text 0 (specGroups c.list_ranges)).length =
      (specGroups c.list_ranges).length ∧
    (∀ r ∈ specBulletEmit c.plain_text 0 (specGroups c.list_ranges),
      r.isBulletize = true) := by
  refine ⟨?_, specBulletEmit_length _ _ 0, fun r h => specBulletEmit_bulletize _ _ 0 r h⟩
  rw [generate_batch_requests_decomp, bullet_requests_eq_spec]
  cases h : c.tables with
  | nil => simp [generate_table_requests_nil c h, h]
  | cons t ts => simp [h]

/-- A conversion result violating two of the claimed invariants: a
`FormatRange` with `end_index < start_index` and a zero-column table
(the `TableData` fields are as Python's `__post_init__` leaves them for
an empty row list). -/
def c8bad : ConversionResult :=
  ⟨"ab".toList, [⟨5, 2, "bold", none, none, none⟩], [], [⟨1, [], 0, 0⟩]⟩

/-- C8 counterexample: on an input with an inverted `FormatRange` and a
zero-column table, `generate_batch_requests` raises nothing and keeps
producing requests — the style request for the inverted range and the
`insertTable` with zero columns are emitted verbatim. -/
theorem c8_counterexample :
    (∃ fmt ∈ c8bad.format_ranges, fmt.end_index < fmt.start_index) ∧
    (∃ t ∈ c8bad.tables, t.num_cols = 0) ∧
    generate_batch_requests c8bad =
      [.updateTextStyleBold 5 2, .insertTable 0 0 1,
       .updateTableCellStyleBorder 2 0 0] := by
  refine ⟨by decide, by decide, by decide⟩

/-- C8 (amended): the converter contains no invariant checks at all —
`generate_batch_requests` is total and always returns the concatenation
of the three phases' requests, continuing through a cursor/offset
mismatch, an inverted `FormatRange` or a zero-column table instead of
raising a typed error. -/
theorem c8_no_typed_error (c : ConversionResult) :
    generate_batch_requests c =
      bullet_requests c ++ style_requests c ++
        (if c.tables.isEmpty then [] else generate_table_requests c) := by
  exact generate_batch_requests_decomp c

/-- A request emitted for a member format range is in the styling pass's
output. -/
theorem mem_style_requests (pt : List Char) (r : Request) :
    ∀ (rs : List FormatRange) (fmt : FormatRange), fmt ∈ rs →
      r ∈ format_requests_for pt fmt →
      r ∈ rs.foldr (fun f acc => format_requests_for pt f ++ acc) [] := by
  intro rs
  induction rs with
  | nil => intro fmt h; simp at h
  | cons f fs ih =>
    intro fmt hmem hr
    simp only [List.mem_cons] at hmem
    rcases hmem with h | h
    · subst h; exact List.mem_append_left _ hr
    · exact List.mem_append_right _ (ih fmt h hr)

/-- C7: every heading `FormatRange` yields an `updateParagraphStyle`
request whose named style is `TITLE` for source level 1 and
`HEADING_{N-1}` for level `N > 1`, over the range shifted left by the
count of tab characters of the original plain text before the range's
start. -/
theorem c7_heading_mapping (c : ConversionResult) (fmt : FormatRange) (l : Nat)
    (hmem : fmt ∈ c.format_ranges) (htype : fmt.format_type = "heading")
    (hlevel : fmt.level = some l) :
    Request.updateParagraphStyleNamed
        ((fmt.start_index : Int) - tabsBeforePos c.plain_text fmt.start_index)
        ((fmt.end_index : Int) - tabsBeforePos c.plain_text fmt.start_index)
        (if l = 1 then "TITLE" else "HEADING_" ++ toString (l - 1)) ∈
      generate_batch_requests c := by
  rw [generate_batch_requests_decomp]
  refine List.mem_append_left _ (List.mem_append_right _ ?_)
  refine mem_style_requests c.plain_text _ c.format_ranges fmt hmem ?_
  simp only [format_requests_for, htype, if_pos rfl, hlevel, Option.some.injEq,
    Option.getD_some, List.mem_singleton]
  by_cases h : l = 1 <;> simp [h]

/-- Concrete input for the C7 witness: one level-2 heading range. -/
def c7ex : ConversionResult :=
  ⟨"abc\n".toList, [⟨1, 4, "heading", some 2, none, some "abc".toList⟩], [], []⟩

/-- C7 witness: at the concrete level-2 heading the emitted request uses
`HEADING_1` over the unshifted range. -/
theorem c7_witness :
    Request.updateParagraphStyleNamed 1 4 "HEADING_1" ∈
      generate_batch_requests c7ex := by
  have h := c7_heading_mapping c7ex ⟨1, 4, "heading", some 2, none, some "abc".toList⟩ 2
    (by decide) rfl rfl
  simpa [tabsBeforePos, countTabs] using h

/-- The step-1 total: cumulative `tab_offset` after all list groups have
been processed — the sum of the tab counts of the groups' spans of the
original plain text. -/
def groupTabSum (pt : List Char) (gs : List ListGroup) : Nat :=
  (gs.map (fun g => countTabs (sliceList pt g.start_index g.end_index))).sum

/-- Splitting a prefix tab count at an inner position. -/
theorem countTabs_take_split (pt : List Char) {a b : Nat} (h : a ≤ b) :
    countTabs (pt.take b) = countTabs (pt.take a) + countTabs (sliceList pt a b) := by
  unfold countTabs sliceList
  conv_lhs => rw [← List.take_append_drop a (pt.take b)]
  rw [List.countP_append, List.take_take, Nat.min_eq_left h]

/-- The ordering/coverage invariant under which the two tab-adjustment
schemes agree: the groups lie in increasing order starting at or after
position `a`, each span is well-formed, and no tab character of the
plain text occurs in a gap between `a`, the group spans, and `start`. -/
def gapsFreeB (pt : List Char) (start : Nat) : Nat → List ListGroup → Bool
  | a, [] => decide (a ≤ start) && decide (countTabs (sliceList pt a start) = 0)
  | a, g :: gs =>
    decide (a ≤ g.start_index) && decide (g.start_index ≤ g.end_index) &&
      decide (countTabs (sliceList pt a g.start_index) = 0) &&
      gapsFreeB pt start g.end_index gs

/-- Telescoping: under the gap-freeness invariant the prefix tab count
at `start` is the count at `a` plus the groups' span counts. -/
theorem gapsFree_telescope (pt : List Char) (start : Nat) :
    ∀ (gs : List ListGroup) (a : Nat), gapsFreeB pt start a gs = true →
      countTabs (pt.take start) = countTabs (pt.take a) + groupTabSum pt gs := by
  intro gs
  induction gs with
  | nil =>
    intro a h
    simp only [gapsFreeB, Bool.and_eq_true, decide_eq_true_eq] at h
    rw [countTabs_take_split pt h.1, h.2]
    simp [groupTabSum]
  | cons g gs ih =>
    intro a h
    simp only [gapsFreeB, Bool.and_eq_true, decide_eq_true_eq] at h
    obtain ⟨⟨⟨h1, h2⟩, h3⟩, h4⟩ := h
    have hrec := ih g.end_index h4
    have hsplit1 := countTabs_take_split pt h1
    have hsplit2 := countTabs_take_split pt h2
    simp only [groupTabSum, List.map_cons, List.sum_cons] at *
    omega

/-- The hypothesis of C2 as stated: the range's start lies after every
tab character counted by either scheme.  Tabs counted by the step-2
static scan lie before the start by definition, so the condition reduces
to: every tab inside some computed group span lies before the start. -/
def countedTabsBefore (c : ConversionResult) (start : Nat) : Bool :=
  (List.range c.plain_text.length).all fun i =>
    !(decide (c.plain_text.getD i ' ' = '\t')) ||
    !((compute_list_groups c.list_ranges).any fun g =>
        decide (g.start_index ≤ i) && decide (i < g.end_index)) ||
    decide (i < start)

/-- Token stream for the markdown of a code block containing one tab
followed by a level-1 heading (e.g. "\tx" rendered as an indented code
block would carry the tab; here the fence content is a single tab). -/
def toksCodeTabHeading : List Tok :=
  [.codeBlock ['\t'], .headingOpen 1, .inline [.text "ab".toList], .headingClose]

/-- C2 counterexample: a tab in a code block lies before the heading
range's start and is counted by the step-2 static rescan, but belongs to
no list group, so the step-1 cumulative `tabOffset` (0, there are no
list ranges) differs from the static recomputation (1) although the
range starts after every counted tab.  The claim as stated is false. -/
theorem c2_counterexample :
    (⟨3, 5, "heading", some 1, none, some "ab".toList⟩ ∈
        (markdown_to_gdocs toksCodeTabHeading).result.format_ranges) ∧
    countedTabsBefore (markdown_to_gdocs toksCodeTabHeading).result 3 = true ∧
    tabsBeforePos (markdown_to_gdocs toksCodeTabHeading).result.plain_text 3 ≠
      groupTabSum (markdown_to_gdocs toksCodeTabHeading).result.plain_text
        (compute_list_groups (markdown_to_gdocs toksCodeTabHeading).result.list_ranges) := by
  refine ⟨by decide, by decide, by decide⟩

/-- C2 (amended): for every recorded range, when the computed list
groups are increasingly ordered, lie entirely before the range's start
and cover every tab of the plain text before the start (no tab in the
gaps), the step-2 static recomputation equals the step-1 cumulative
`tabOffset` over all list groups, so both schemes yield the same
adjusted start and end offsets. -/
theorem c2_tab_offset_equiv (c : ConversionResult) (fmt : FormatRange)
    (hmem : fmt ∈ c.format_ranges)
    (hfree : gapsFreeB c.plain_text fmt.start_index 0
      (compute_list_groups c.list_ranges) = true) :
    tabsBeforePos c.plain_text fmt.start_index =
      groupTabSum c.plain_text (compute_list_groups c.list_ranges) ∧
    (fmt.start_index : Int) - tabsBeforePos c.plain_text fmt.start_index =
      (fmt.start_index : Int) -
        groupTabSum c.plain_text (compute_list_groups c.list_ranges) ∧
    (fmt.end_index : Int) - tabsBeforePos c.plain_text fmt.start_index =
      (fmt.end_index : Int) -
        groupTabSum c.plain_text (compute_list_groups c.list_ranges) := by
  have h := gapsFree_telescope c.plain_text fmt.start_index
    (compute_list_groups c.list_ranges) 0 hfree
  simp only [List.take_zero] at h
  have hz : countTabs ([] : List Char) = 0 := rfl
  have heq : tabsBeforePos c.plain_text fmt.start_index =
      groupTabSum c.plain_text (compute_list_groups c.list_ranges) := by
    unfold tabsBeforePos; omega
  exact ⟨heq, by rw [heq], by rw [heq]⟩

/-- Token stream of a nested bullet list (`- a` containing `- b`)
followed by a level-1 heading: the nested item contributes one tab that
lies inside the single merged list group, before the heading range. -/
def toksNestedHeading : List Tok :=
  [.bulletListOpen, .listItemOpen, .paragraphOpen, .inline [.text "a".toList],
   .paragraphClose, .bulletListOpen, .listItemOpen, .paragraphOpen,
   .inline [.text "b".toList], .paragraphClose, .listItemClose, .bulletListClose,
   .listItemClose, .bulletListClose, .headingOpen 1, .inline [.text "c".toList],
   .headingClose]

/-- C2 witness: on the nested-list document both schemes count exactly
the one nesting tab for the trailing heading range, so the adjusted
offsets agree. -/
theorem c2_witness :
    tabsBeforePos (markdown_to_gdocs toksNestedHeading).result.plain_text 6 =
      groupTabSum (markdown_to_gdocs toksNestedHeading).result.plain_text
        (compute_list_groups (markdown_to_gdocs toksNestedHeading).result.list_ranges) ∧
    ((6 : Int) - tabsBeforePos (markdown_to_gdocs toksNestedHeading).result.plain_text 6 =
      (6 : Int) - groupTabSum (markdown_to_gdocs toksNestedHeading).result.plain_text
        (compute_list_groups (markdown_to_gdocs toksNestedHeading).result.list_ranges)) ∧
    ((7 : Int) - tabsBeforePos (markdown_to_gdocs toksNestedHeading).result.plain_text 6 =
      (7 : Int) - groupTabSum (markdown_to_gdocs toksNestedHeading).result.plain_text
        (compute_list_groups (markdown_to_gdocs toksNestedHeading).result.list_ranges)) := by
  exact c2_tab_offset_equiv (markdown_to_gdocs toksNestedHeading).result
    ⟨6, 7, "heading", some 1, none, some "c".toList⟩ (by decide) (by decide)

/-- The cursor/buffer invariant: `current_index = 1 + length(plain_text)`. -/
def cursorInv (st : ConvState) : Prop :=
  st.current_index = st.plain_text.length + 1

/-- The shape invariant of a stored table: at least one row, no empty
row, and the derived `num_rows` / `num_cols` fields, both at least 1. -/
def goodTable (t : TableData) : Prop :=
  t.rows ≠ [] ∧ (∀ row ∈ t.rows, row ≠ []) ∧ t.num_rows = t.rows.length ∧
  t.num_cols = (t.rows.map List.length).foldr max 0 ∧
  1 ≤ t.num_rows ∧ 1 ≤ t.num_cols

/-- All tables stored so far satisfy the shape invariant. -/
def tablesGood (st : ConvState) : Prop :=
  ∀ t ∈ st.tables, goodTable t

/-- A walker step from `st` to `st'` preserves the cursor invariant and
the stored-table invariant. -/
def stepOK (st st' : ConvState) : Prop :=
  (cursorInv st → cursorInv st') ∧ (tablesGood st → tablesGood st')

theorem stepOK_refl (st : ConvState) : stepOK st st :=
  ⟨id, id⟩

theorem stepOK_trans {s1 s2 s3 : ConvState} (h1 : stepOK s1 s2) (h2 : stepOK s2 s3) :
    stepOK s1 s3 :=
  ⟨fun h => h2.1 (h1.1 h), fun h => h2.2 (h1.2 h)⟩

/-- State relation of the inline scan shared by the heading and
paragraph handlers: the buffer and the recorded list/table entries are
untouched and the cursor advances by exactly the returned text length. -/
theorem inline_scan_state (close : Tok) :
    ∀ (toks : List Tok) (st : ConvState),
      (inline_scan close toks st).2.1.plain_text = st.plain_text ∧
      (inline_scan close toks st).2.1.current_index =
        st.current_index + (inline_scan close toks st).1.length ∧
      (inline_scan close toks st).2.1.list_ranges = st.list_ranges ∧
      (inline_scan close toks st).2.1.tables = st.tables := by
  intro toks
  induction toks with
  | nil => intro st; simp [inline_scan]
  | cons t rest ih =>
    intro st
    by_cases h : t = close
    · simp [inline_scan, h]
    · cases t <;> simp only [inline_scan, if_neg h] <;>
        first
        | exact ih st
        | · rename_i cs
            have hrec := ih { st with
              current_index :=
                st.current_index + (process_inline cs st.current_index).1.length,
              format_ranges :=
                st.format_ranges ++ (process_inline cs st.current_index).2 }
            simp only at hrec
            refine ⟨hrec.1, ?_, hrec.2.2.1, hrec.2.2.2⟩
            rw [hrec.2.1]
            simp [Nat.add_assoc]

/-- The heading handler preserves both invariants. -/
theorem process_heading_stepOK (level : Nat) (rest : List Tok) (st : ConvState) :
    stepOK st (process_heading level rest st).1 := by
  have h := inline_scan_state Tok.headingClose rest st
  constructor
  · intro hinv
    simp only [process_heading, cursorInv] at *
    simp [h.1, h.2.1, hinv]
    omega
  · intro hg t ht
    simp only [process_heading] at ht
    simp only [h.2.2.2] at ht
    exact hg t ht

/-- The paragraph handler preserves both invariants. -/
theorem process_paragraph_stepOK (rest : List Tok) (st : ConvState) :
    stepOK st (process_paragraph rest st).1 := by
  have h := inline_scan_state Tok.paragraphClose rest st
  constructor
  · intro hinv
    simp only [process_paragraph, cursorInv] at *
    simp [h.1, h.2.1, hinv]
    omega
  · intro hg t ht
    simp only [process_paragraph] at ht
    simp only [h.2.2.2] at ht
    exact hg t ht

/-- The blockquote inner loop preserves both invariants. -/
theorem blockquote_scan_stepOK :
    ∀ (fuel : Nat) (toks : List Tok) (st : ConvState),
      stepOK st (blockquote_scan fuel toks st).1 := by
  intro fuel
  induction fuel with
  | zero => intro toks st; exact stepOK_refl st
  | succ fuel ih =>
    intro toks st
    cases toks with
    | nil => exact stepOK_refl st
    | cons t rest =>
      by_cases h : t = Tok.blockquoteClose
      · simp only [blockquote_scan, if_pos h]; exact stepOK_refl st
      · by_cases h2 : t = Tok.paragraphOpen
        · simp only [blockquote_scan, if_neg h, if_pos h2]
          exact stepOK_trans (process_paragraph_stepOK rest st)
            (ih _ (process_paragraph rest st).1)
        · simp only [blockquote_scan, if_neg h, if_neg h2]
          exact ih rest st

/-- The blockquote handler preserves both invariants (it only adds a
format range on top of the inner loop). -/
theorem process_blockquote_stepOK (rest : List Tok) (st : ConvState) :
    stepOK st (process_blockquote rest st).1 := by
  have h := blockquote_scan_stepOK (rest.length + 1) rest st
  constructor
  · intro hinv
    have := h.1 hinv
    simpa [process_blockquote, cursorInv] using this
  · intro hg
    have := h.2 hg
    intro t ht
    simp only [process_blockquote] at ht
    exact this t ht

/-- The code-block handler preserves both invariants. -/
theorem process_code_block_stepOK (content : List Char) (st : ConvState) :
    stepOK st (process_code_block content st) := by
  constructor
  · intro hinv
    simp only [process_code_block, cursorInv] at *
    simp [hinv]
    omega
  · intro hg t ht
    simp only [process_code_block] at ht
    exact hg t ht

/-- The horizontal-rule handler preserves both invariants. -/
theorem process_hr_stepOK (st : ConvState) : stepOK st (process_hr st) := by
  constructor
  · intro hinv
    simp only [process_hr, cursorInv] at *
    simp [hinv]
  · intro hg t ht
    simp only [process_hr] at ht
    exact hg t ht

/-- Rows collected by the table scan are never empty: a row is appended
at `tr_close` only when the current row is non-empty. -/
theorem table_scan_rows :
    ∀ (fuel : Nat) (toks : List Tok) (rows : List (List TableCell))
      (cur : List TableCell) (h : Bool),
      (∀ r ∈ rows, r ≠ []) →
      ∀ r ∈ (table_scan fuel toks rows cur h).1, r ≠ [] := by
  intro fuel
  induction fuel with
  | zero => intro toks rows cur h hrows; exact hrows
  | succ fuel ih =>
    intro toks rows cur h hrows
    cases toks with
    | nil => exact hrows
    | cons t rest =>
      cases t <;> simp only [table_scan] <;>
        first
        | exact hrows
        | exact ih _ _ _ _ hrows
        | skip
      case trClose =>
        refine ih _ _ _ _ ?_
        by_cases hc : cur.isEmpty
        · simpa [hc] using hrows
        · simp only [hc, if_neg, Bool.false_eq_true, not_false_iff]
          intro r hr
          rcases List.mem_append.mp hr with h1 | h1
          · exact hrows r h1
          · rcases List.mem_singleton.mp h1 with rfl
            simpa [List.isEmpty_iff] using hc

/-- A `TableData` built from a non-empty list of non-empty rows
satisfies the shape invariant. -/
theorem mkTableData_good (idx : Nat) (rows : List (List TableCell))
    (hne : rows ≠ []) (hrows : ∀ r ∈ rows, r ≠ []) :
    goodTable (mkTableData idx rows) := by
  cases rows with
  | nil => exact absurd rfl hne
  | cons r rs =>
    have hr : r ≠ [] := hrows r (List.mem_cons_self r rs)
    have hlen : 1 ≤ r.length := by
      cases r with
      | nil => exact absurd rfl hr
      | cons a as => simp
    refine ⟨by simp [mkTableData], hrows, by simp [mkTableData],
      by simp [mkTableData], ?_, ?_⟩
    · simp [mkTableData]
    · simp only [mkTableData, List.isEmpty_cons, Bool.false_eq_true, if_neg,
        not_false_iff, List.map_cons, List.foldr_cons]
      omega

/-- The table handler preserves both invariants; the stored table (when
any row was produced) satisfies the shape invariant. -/
theorem process_table_stepOK (rest : List Tok) (st : ConvState) :
    stepOK st (process_table rest st).1 := by
  by_cases h : (table_scan (rest.length + 1) rest [] [] false).1.isEmpty
  · have heq : (process_table rest st).1 = st := by
      simp [process_table, h]
    rw [heq]; exact stepOK_refl st
  · have hrows := table_scan_rows (rest.length + 1) rest [] [] false (by simp)
    have heq : (process_table rest st).1 =
        { st with
          tables := st.tables ++
            [mkTableData st.current_index
              (table_scan (rest.length + 1) rest [] [] false).1],
          plain_text := st.plain_text ++ ['\n'],
          current_index := st.current_index + 1 } := by
      simp [process_table, h]
    rw [heq]
    constructor
    · intro hinv
      simp only [cursorInv] at *
      simp [hinv]
    · intro hg t ht
      simp only [tablesGood] at hg
      rcases List.mem_append.mp ht with h1 | h1
      · exact hg t h1
      · rcases List.mem_singleton.mp h1 with rfl
        refine mkTableData_good st.current_index _ ?_ hrows
        intro hh
        exact h (by simp [hh])

/-- The list-item paragraph loop preserves both invariants (the
checkbox-stripped text is appended together with a cursor advance of
exactly its length). -/
theorem item_paragraph_stepOK :
    ∀ (toks : List Tok) (st : ConvState) (hc : Bool),
      stepOK st (item_paragraph toks st hc).1 := by
  intro toks
  induction toks with
  | nil => intro st hc; exact stepOK_refl st
  | cons t rest ih =>
    intro st hc
    cases t <;> simp only [item_paragraph] <;>
      first
      | exact stepOK_refl st
      | exact ih st hc
      | skip
    case inline cs =>
      by_cases h : hasNonSpace (stripCheckbox (process_inline cs st.current_index).1)
      · simp only [h, if_pos]
        have hstep : stepOK st { st with
            format_ranges := st.format_ranges ++ (process_inline cs st.current_index).2,
            plain_text := st.plain_text ++
              stripCheckbox (process_inline cs st.current_index).1,
            current_index := st.current_index +
              (stripCheckbox (process_inline cs st.current_index).1).length } := by
          constructor
          · intro hinv; simp only [cursorInv] at *; simp [hinv]; omega
          · intro hg t ht; exact hg t ht
        exact stepOK_trans hstep (ih _ true)
      · simp only [h, Bool.false_eq_true, if_neg, not_false_iff]
        have hstep : stepOK st { st with
            format_ranges := st.format_ranges ++ (process_inline cs st.current_index).2 } :=
          ⟨fun hinv => hinv, fun hg t ht => hg t ht⟩
        exact stepOK_trans hstep (ih _ hc)

/-- Committing a list item preserves both invariants. -/
theorem commit_item_stepOK (item_start : Nat) (ordered : Bool) (lvl : Nat)
    (st : ConvState) : stepOK st (commit_item item_start ordered lvl st) := by
  constructor
  · intro hinv
    simp only [commit_item, cursorInv] at *
    simp [hinv]
  · intro hg t ht
    simp only [commit_item] at ht
    exact hg t ht

/-- All three mutually recursive list functions preserve both
invariants, for every fuel value. -/
theorem list_trio_stepOK :
    ∀ fuel : Nat,
      (∀ (ordered : Bool) (lvl : Nat) (toks : List Tok) (st : ConvState),
        stepOK st (process_list fuel ordered lvl toks st).1) ∧
      (∀ (ordered : Bool) (lvl : Nat) (toks : List Tok) (st : ConvState),
        stepOK st (list_items fuel ordered lvl toks st).1) ∧
      (∀ (ordered : Bool) (lvl : Nat) (item_start : Nat) (toks : List Tok)
         (st : ConvState) (hc : Bool),
        stepOK st (item_content fuel ordered lvl item_start toks st hc).1) := by
  intro fuel
  induction fuel with
  | zero =>
    exact ⟨fun _ _ _ st => stepOK_refl st, fun _ _ _ st => stepOK_refl st,
      fun _ _ _ _ st _ => stepOK_refl st⟩
  | succ fuel ih =>
    obtain ⟨ihp, ihl, ihc⟩ := ih
    refine ⟨?_, ?_, ?_⟩
    · intro ordered lvl toks st
      simp only [process_list]
      exact ihl ordered lvl toks st
    · intro ordered lvl toks st
      cases toks with
      | nil => exact stepOK_refl st
      | cons t rest =>
        cases t <;> simp only [list_items] <;>
          first
          | exact stepOK_refl st
          | exact ihl ordered lvl rest st
          | skip
        case listItemOpen =>
          have htabs : stepOK st { st with
              plain_text := st.plain_text ++ List.replicate lvl '\t',
              current_index := st.current_index + lvl } := by
            constructor
            · intro hinv; simp only [cursorInv] at *; simp [hinv]; omega
            · intro hg t ht; exact hg t ht
          refine stepOK_trans htabs (stepOK_trans (ihc ordered lvl st.current_index rest _ false) ?_)
          set r := item_content fuel ordered lvl st.current_index rest
            { st with plain_text := st.plain_text ++ List.replicate lvl '\t',
                      current_index := st.current_index + lvl } false
          by_cases hcc : r.2.1
          · simp only [hcc, if_pos]
            exact stepOK_trans
              (commit_item_stepOK st.current_index ordered lvl r.1)
              (ihl ordered lvl r.2.2 _)
          · simp only [hcc, Bool.false_eq_true, if_neg, not_false_iff]
            exact ihl ordered lvl r.2.2 r.1
    · intro ordered lvl item_start toks st hc
      cases toks with
      | nil => exact stepOK_refl st
      | cons t rest =>
        cases t <;> simp only [item_content] <;>
          first
          | exact stepOK_refl st
          | exact ihc ordered lvl item_start rest st hc
          | skip
        case paragraphOpen =>
          exact stepOK_trans (item_paragraph_stepOK rest st hc)
            (ihc ordered lvl item_start _ _ _)
        case bulletListOpen =>
          have h1 : stepOK st (if hc then commit_item item_start ordered lvl st else st) := by
            by_cases h : hc
            · simp only [h, if_pos]; exact commit_item_stepOK item_start ordered lvl st
            · simp only [h, Bool.false_eq_true, if_neg, not_false_iff]
              exact stepOK_refl st
          exact stepOK_trans h1 (stepOK_trans (ihp false (lvl + 1) rest _)
            (ihc ordered lvl item_start _ _ false))
        case orderedListOpen =>
          have h1 : stepOK st (if hc then commit_item item_start ordered lvl st else st) := by
            by_cases h : hc
            · simp only [h, if_pos]; exact commit_item_stepOK item_start ordered lvl st
            · simp only [h, Bool.false_eq_true, if_neg, not_false_iff]
              exact stepOK_refl st
          exact stepOK_trans h1 (stepOK_trans (ihp true (lvl + 1) rest _)
            (ihc ordered lvl item_start _ _ false))

/-- The top-level token dispatch preserves both invariants, for every
fuel value. -/
theorem process_tokens_stepOK :
    ∀ (fuel : Nat) (toks : List Tok) (st : ConvState),
      stepOK st (process_tokens fuel toks st) := by
  intro fuel
  induction fuel with
  | zero => intro toks st; exact stepOK_refl st
  | succ fuel ih =>
    intro toks st
    cases toks with
    | nil => exact stepOK_refl st
    | cons t rest =>
      cases t <;> simp only [process_tokens] <;>
        first
        | exact ih rest st
        | skip
      case headingOpen lvl =>
        exact stepOK_trans (process_heading_stepOK lvl rest st) (ih _ _)
      case paragraphOpen =>
        exact stepOK_trans (process_paragraph_stepOK rest st) (ih _ _)
      case bulletListOpen =>
        exact stepOK_trans ((list_trio_stepOK _).1 false 0 rest st) (ih _ _)
      case orderedListOpen =>
        exact stepOK_trans ((list_trio_stepOK _).1 true 0 rest st) (ih _ _)
      case blockquoteOpen =>
        exact stepOK_trans (process_blockquote_stepOK rest st) (ih _ _)
      case codeBlock content =>
        exact stepOK_trans (process_code_block_stepOK content st) (ih _ _)
      case hr =>
        exact stepOK_trans (process_hr_stepOK st) (ih _ _)
      case tableOpen =>
        exact stepOK_trans (process_table_stepOK rest st) (ih _ _)

/-- C3: after conversion the converter's `current_index` minus 1 equals
the length of the produced plain text — every handler advances the
cursor by exactly what it appends — and the horizontal-rule handler in
particular appends the fixed literal `"---\n"` while advancing the
cursor by exactly 4. -/
theorem c3_cursor_invariant :
    (∀ toks : List Tok,
      (markdown_to_gdocs toks).current_index - 1 =
        (markdown_to_gdocs toks).plain_text.length) ∧
    (∀ st : ConvState,
      (process_hr st).plain_text = st.plain_text ++ ['-', '-', '-', '\n'] ∧
      (process_hr st).current_index = st.current_index + 4) := by
  constructor
  · intro toks
    have h := (process_tokens_stepOK (toks.length + 1) toks {}).1 rfl
    simp only [cursorInv, markdown_to_gdocs] at *
    omega
  · intro st
    exact ⟨rfl, rfl⟩

/-- C10: every table stored in a conversion result has at least one row,
no empty rows, `num_rows = len(rows) ≥ 1` and
`num_cols = max row length ≥ 1`; in particular no zero-column table can
reach the request generator through `markdown_to_gdocs`. -/
theorem c10_table_shape (toks : List Tok) (t : TableData)
    (ht : t ∈ (markdown_to_gdocs toks).result.tables) :
    t.rows ≠ [] ∧ (∀ row ∈ t.rows, row ≠ []) ∧ t.num_rows = t.rows.length ∧
    t.num_cols = (t.rows.map List.length).foldr max 0 ∧
    1 ≤ t.num_rows ∧ 1 ≤ t.num_cols := by
  have h := (process_tokens_stepOK (toks.length + 1) toks {}).2
  have hinit : tablesGood {} := by
    intro t ht
    simp [ConvState.tables] at ht
  exact h hinit t ht

/-- The table stored for the scenario-E document. -/
def c10exTable : TableData :=
  ⟨1, [[⟨"A".toList, true, []⟩, ⟨"B".toList, true, []⟩],
       [⟨"c".toList, false, []⟩, ⟨"d".toList, false, []⟩]], 2, 2⟩

/-- C10 witness: the shape invariant evaluated at the concrete table of
the scenario-E conversion. -/
theorem c10_witness :
    c10exTable.rows ≠ [] ∧ (∀ row ∈ c10exTable.rows, row ≠ []) ∧
    c10exTable.num_rows = c10exTable.rows.length ∧
    c10exTable.num_cols = (c10exTable.rows.map List.length).foldr max 0 ∧
    1 ≤ c10exTable.num_rows ∧ 1 ≤ c10exTable.num_cols :=
  c10_table_shape toksScenarioE c10exTable (by decide)
